import Mathlib

/-!
Verification development for the Firefox-extension storage recovery tools.

The Python sources are shallowly embedded over `List Char` (decoded text),
`List Nat` (byte blobs) and an explicit `StorageValue` union for the values a
sqlite row can hold.  Python operations that can raise are modelled in
`Except PyErr`; everything else is a total function.
-/

set_option maxRecDepth 10000

/-- Convert a string literal to the `List Char` representation used throughout. -/
def cs (s : String) : List Char := s.toList

/-- Model of Python `str.isprintable` for one character: printable ASCII is
`0x20`–`0x7E`; `DEL`, the C1 controls `0x80`–`0x9F`, `NBSP` and the soft
hyphen are not printable; remaining higher code points are treated as
printable (faithful for every code point the tools are exercised on). -/
def isPrintableChar (c : Char) : Bool :=
  (0x20 ≤ c.toNat && c.toNat ≤ 0x7E) ||
    (0xA1 ≤ c.toNat && c.toNat ≠ 0xAD)

/-- Model of Python `str.isalnum` for one character (ASCII letters and digits;
the field names the tools scan for are all ASCII). -/
def isAlnumChar (c : Char) : Bool :=
  c.isAlpha || c.isDigit

/-- ASCII whitespace, the characters Python `str.strip()` removes from the
texts arising here. -/
def isSpaceChar (c : Char) : Bool :=
  c = ' ' || c = '\t' || c = '\n' || c = '\r' ||
    c = Char.ofNat 0x0B || c = Char.ofNat 0x0C

/-- Python `str.strip()`: drop leading and trailing whitespace. -/
def stripWs (l : List Char) : List Char :=
  ((l.dropWhile isSpaceChar).reverse.dropWhile isSpaceChar).reverse

/-- Python `str.strip(ch)` for a single character `ch`: drop that character
from both ends. -/
def stripCharEnds (ch : Char) (l : List Char) : List Char :=
  ((l.dropWhile (· = ch)).reverse.dropWhile (· = ch)).reverse

/-- Python ASCII `str.lower` on one character. -/
def toLowerChar (c : Char) : Char :=
  if 'A' ≤ c && c ≤ 'Z' then Char.ofNat (c.toNat + 32) else c

/-- Python ASCII `str.lower`. -/
def toLowerList (l : List Char) : List Char := l.map toLowerChar

/-- Python slicing `l[a:b]` for `0 ≤ a, b` (clamped at the ends). -/
def pySlice (l : List Char) (a b : Nat) : List Char := (l.take b).drop a

/-- First index at which `needle` occurs in `hay` (Python `str.find`
restricted to non-negative results), `none` when absent. -/
def findSubAux (needle : List Char) : List Char → Option Nat
  | [] => if needle = [] then some 0 else none
  | c :: t =>
    if needle.isPrefixOf (c :: t) then some 0
    else (findSubAux needle t).map (· + 1)

/-- Python `hay.find(needle, start)`, `none` for `-1`.  Python returns `-1`
whenever `start` exceeds the length of `hay`. -/
def findFrom (needle hay : List Char) (start : Nat) : Option Nat :=
  if hay.length < start then none
  else (findSubAux needle (hay.drop start)).map (· + start)

/-- Python substring test `needle in hay`. -/
def isSubstr (needle hay : List Char) : Bool :=
  (findSubAux needle hay).isSome

lemma findSubAux_le_length {needle hay : List Char} {i : Nat}
    (h : findSubAux needle hay = some i) : i ≤ hay.length := by
  induction hay generalizing i with
  | nil =>
    unfold findSubAux at h
    split at h
    · simp only [Option.some.injEq] at h; omega
    · simp at h
  | cons c t ih =>
    unfold findSubAux at h
    split at h
    · simp only [Option.some.injEq] at h
      simp only [List.length_cons]
      omega
    · match hfind : findSubAux needle t with
      | none => rw [hfind] at h; simp at h
      | some j =>
        rw [hfind] at h
        simp only [Option.map_some', Option.some.injEq] at h
        have := ih hfind
        simp only [List.length_cons]
        omega

lemma findFrom_le_length {needle hay : List Char} {s i : Nat}
    (h : findFrom needle hay s = some i) : i ≤ hay.length := by
  unfold findFrom at h
  by_cases hs : hay.length < s
  · rw [if_pos hs] at h; simp at h
  · rw [if_neg hs] at h
    match hfind : findSubAux needle (hay.drop s) with
    | none => rw [hfind] at h; simp at h
    | some j =>
      rw [hfind] at h
      simp only [Option.map_some', Option.some.injEq] at h
      have hj := findSubAux_le_length hfind
      simp only [List.length_drop] at hj
      omega

/-- UTF-8 lossy decoding (Python `bytes.decode('utf-8', errors='ignore')`):
well-formed sequences become their code point, other bytes are dropped.
`fuel` is the number of remaining steps; each step consumes at least one
byte, so `bs.length` fuel suffices. -/
def utf8Go : Nat → List Nat → List Char
  | 0, _ => []
  | _ + 1, [] => []
  | fuel + 1, b :: rest =>
    if b < 0x80 then Char.ofNat b :: utf8Go fuel rest
    else if b < 0xC2 then utf8Go fuel rest
    else if b < 0xE0 then
      match rest with
      | c1 :: r2 =>
        if 0x80 ≤ c1 && c1 < 0xC0 then
          Char.ofNat ((b % 0x20) * 0x40 + c1 % 0x40) :: utf8Go fuel r2
        else utf8Go fuel rest
      | [] => []
    else if b < 0xF0 then
      match rest with
      | c1 :: c2 :: r3 =>
        if (0x80 ≤ c1 && c1 < 0xC0 &&
              (b ≠ 0xE0 || 0xA0 ≤ c1) && (b ≠ 0xED || c1 < 0xA0)) &&
            (0x80 ≤ c2 && c2 < 0xC0) then
          Char.ofNat ((b % 0x10) * 0x1000 + (c1 % 0x40) * 0x40 + c2 % 0x40) ::
            utf8Go fuel r3
        else utf8Go fuel rest
      | _ => utf8Go fuel rest
    else if b < 0xF5 then
      match rest with
      | c1 :: c2 :: c3 :: r4 =>
        if (0x80 ≤ c1 && c1 < 0xC0 &&
              (b ≠ 0xF0 || 0x90 ≤ c1) && (b ≠ 0xF4 || c1 < 0x90)) &&
            (0x80 ≤ c2 && c2 < 0xC0) && (0x80 ≤ c3 && c3 < 0xC0) then
          Char.ofNat ((b % 0x08) * 0x40000 + (c1 % 0x40) * 0x1000 +
              (c2 % 0x40) * 0x40 + c3 % 0x40) :: utf8Go fuel r4
        else utf8Go fuel rest
      | _ => utf8Go fuel rest
    else utf8Go fuel rest

/-- Lossy UTF-8 decode of an entire blob. -/
def utf8Lossy (bs : List Nat) : List Char := utf8Go bs.length bs

lemma utf8Lossy_nil : utf8Lossy [] = [] := rfl

/-- Values produced by Python `json.loads`.  Integral number tokens become
`jnum`; number tokens carrying a fraction or exponent (and the non-finite
constants `NaN`, `Infinity`, `-Infinity` that `json.loads` accepts) are kept
as their lexeme in `jnonint`, since no claim inspects a float's value. -/
inductive JValue where
  | jnull : JValue
  | jbool : Bool → JValue
  | jnum : Int → JValue
  | jnonint : List Char → JValue
  | jstr : List Char → JValue
  | jarr : List JValue → JValue
  | jobj : List (List Char × JValue) → JValue

/-- JSON insignificant whitespace. -/
def jsonWs (c : Char) : Bool :=
  c = ' ' || c = '\t' || c = '\n' || c = '\r'

/-- Numeric value of a hex digit. -/
def hexVal (c : Char) : Nat :=
  if '0' ≤ c && c ≤ '9' then c.toNat - '0'.toNat
  else if 'a' ≤ c && c ≤ 'f' then c.toNat - 'a'.toNat + 10
  else if 'A' ≤ c && c ≤ 'F' then c.toNat - 'A'.toNat + 10
  else 0

def isHexDigitChar (c : Char) : Bool :=
  ('0' ≤ c && c ≤ '9') || ('a' ≤ c && c ≤ 'f') || ('A' ≤ c && c ≤ 'F')

def isDigitChar (c : Char) : Bool := '0' ≤ c && c ≤ '9'

/-- Parse the body of a JSON string literal (the opening quote already
consumed); returns the decoded characters and the input after the closing
quote.  Raw control characters are rejected as `json.loads` does in strict
mode; surrogate halves from `\uXXXX` escapes are simplified to `Char.ofNat`'s
treatment (no claim exercises them). -/
def parseJStr : Nat → List Char → Option (List Char × List Char)
  | 0, _ => none
  | _ + 1, [] => none
  | fuel + 1, c :: t =>
    if c = '"' then some ([], t)
    else if c = '\\' then
      match t with
      | [] => none
      | e :: t2 =>
        if e = '"' then (parseJStr fuel t2).map (fun p => ('"' :: p.1, p.2))
        else if e = '\\' then (parseJStr fuel t2).map (fun p => ('\\' :: p.1, p.2))
        else if e = '/' then (parseJStr fuel t2).map (fun p => ('/' :: p.1, p.2))
        else if e = 'b' then (parseJStr fuel t2).map (fun p => (Char.ofNat 8 :: p.1, p.2))
        else if e = 'f' then (parseJStr fuel t2).map (fun p => (Char.ofNat 12 :: p.1, p.2))
        else if e = 'n' then (parseJStr fuel t2).map (fun p => ('\n' :: p.1, p.2))
        else if e = 'r' then (parseJStr fuel t2).map (fun p => ('\r' :: p.1, p.2))
        else if e = 't' then (parseJStr fuel t2).map (fun p => ('\t' :: p.1, p.2))
        else if e = 'u' then
          match t2 with
          | h1 :: h2 :: h3 :: h4 :: t3 =>
            if isHexDigitChar h1 && isHexDigitChar h2 &&
                isHexDigitChar h3 && isHexDigitChar h4 then
              (parseJStr fuel t3).map (fun p =>
                (Char.ofNat (((hexVal h1 * 16 + hexVal h2) * 16 + hexVal h3) * 16 +
                  hexVal h4) :: p.1, p.2))
            else none
          | _ => none
        else none
    else if c.toNat < 0x20 then none
    else (parseJStr fuel t).map (fun p => (c :: p.1, p.2))

/-- Digits of a number token read into a natural number. -/
def digitsToNat (ds : List Char) : Nat :=
  ds.foldl (fun acc c => acc * 10 + (c.toNat - '0'.toNat)) 0

/-- Parse a JSON number token (sign already split off by the caller is not
needed: the full grammar `-? int frac? exp?` is handled here).  Returns the
value and the remaining input. -/
def parseJNum (s : List Char) : Option (JValue × List Char) :=
  let (neg, s1) : Bool × List Char :=
    match s with
    | '-' :: t => (true, t)
    | _ => (false, s)
  let intDigits := s1.takeWhile isDigitChar
  let rest1 := s1.dropWhile isDigitChar
  if intDigits = [] then none
  else if intDigits.length > 1 && intDigits.headI = '0' then none
  else
    let fracDigits :=
      match rest1 with
      | '.' :: t => some (t.takeWhile isDigitChar, t.dropWhile isDigitChar)
      | _ => none
    match fracDigits with
    | some (fd, rest2) =>
      if fd = [] then none
      else
        match rest2 with
        | e :: t =>
          if e = 'e' || e = 'E' then
            let (t2 : List Char) :=
              match t with
              | '+' :: u => u
              | '-' :: u => u
              | _ => t
            let ed := t2.takeWhile isDigitChar
            if ed = [] then none
            else some (JValue.jnonint (s.take (s.length - (t2.dropWhile isDigitChar).length)),
              t2.dropWhile isDigitChar)
          else some (JValue.jnonint (s.take (s.length - rest2.length)), rest2)
        | [] => some (JValue.jnonint (s.take (s.length - rest2.length)), rest2)
    | none =>
      match rest1 with
      | e :: t =>
        if e = 'e' || e = 'E' then
          let (t2 : List Char) :=
            match t with
            | '+' :: u => u
            | '-' :: u => u
            | _ => t
          let ed := t2.takeWhile isDigitChar
          if ed = [] then none
          else some (JValue.jnonint (s.take (s.length - (t2.dropWhile isDigitChar).length)),
            t2.dropWhile isDigitChar)
        else
          some (if neg then JValue.jnum (-(digitsToNat intDigits : Int))
            else JValue.jnum (digitsToNat intDigits), rest1)
      | [] =>
        some (if neg then JValue.jnum (-(digitsToNat intDigits : Int))
          else JValue.jnum (digitsToNat intDigits), rest1)

mutual

/-- Recursive-descent parser for one JSON value (the grammar accepted by
Python `json.loads`, including the default `NaN`/`Infinity` constants).
Returns the value and the unconsumed input. -/
def parseJValue : Nat → List Char → Option (JValue × List Char)
  | 0, _ => none
  | fuel + 1, s =>
    let s := s.dropWhile jsonWs
    match s with
    | [] => none
    | c :: t =>
      if c = 'n' then
        if (cs "ull").isPrefixOf t then some (JValue.jnull, t.drop 3) else none
      else if c = 't' then
        if (cs "rue").isPrefixOf t then some (JValue.jbool true, t.drop 3) else none
      else if c = 'f' then
        if (cs "alse").isPrefixOf t then some (JValue.jbool false, t.drop 4) else none
      else if c = 'N' then
        if (cs "aN").isPrefixOf t then some (JValue.jnonint (cs "NaN"), t.drop 2) else none
      else if c = 'I' then
        if (cs "nfinity").isPrefixOf t then
          some (JValue.jnonint (cs "Infinity"), t.drop 7)
        else none
      else if c = '-' && (cs "Infinity").isPrefixOf t then
        some (JValue.jnonint (cs "-Infinity"), t.drop 8)
      else if c = '"' then
        (parseJStr (t.length + 1) t).map (fun p => (JValue.jstr p.1, p.2))
      else if c = '[' then
        match t.dropWhile jsonWs with
        | ']' :: t2 => some (JValue.jarr [], t2)
        | _ => (parseJArr fuel t).map (fun p => (JValue.jarr p.1, p.2))
      else if c = Char.ofNat 0x7B then
        match t.dropWhile jsonWs with
        | u :: t2 => if u = Char.ofNat 0x7D then some (JValue.jobj [], t2)
            else (parseJObj fuel t).map (fun p => (JValue.jobj p.1, p.2))
        | [] => none
      else if c = '-' || isDigitChar c then
        parseJNum (c :: t)
      else none

/-- Comma-separated JSON array elements up to the closing bracket. -/
def parseJArr : Nat → List Char → Option (List JValue × List Char)
  | 0, _ => none
  | fuel + 1, s =>
    match parseJValue fuel s with
    | none => none
    | some (v, rest) =>
      match rest.dropWhile jsonWs with
      | ',' :: t => (parseJArr fuel t).map (fun p => (v :: p.1, p.2))
      | ']' :: t => some ([v], t)
      | _ => none

/-- Comma-separated JSON object members up to the closing brace. -/
def parseJObj : Nat → List Char → Option (List (List Char × JValue) × List Char)
  | 0, _ => none
  | fuel + 1, s =>
    match s.dropWhile jsonWs with
    | c :: t =>
      if c = '"' then
        match parseJStr (t.length + 1) t with
        | none => none
        | some (k, rest) =>
          match rest.dropWhile jsonWs with
          | ':' :: t2 =>
            match parseJValue fuel t2 with
            | none => none
            | some (v, rest2) =>
              match rest2.dropWhile jsonWs with
              | ',' :: t3 => (parseJObj fuel t3).map (fun p => ((k, v) :: p.1, p.2))
              | u :: t3 =>
                if u = Char.ofNat 0x7D then some ([(k, v)], t3) else none
              | [] => none
          | _ => none
      else none
    | [] => none

end

/-- Python `json.loads`: parse one JSON document, requiring only whitespace
after it. -/
def jsonLoads (s : List Char) : Option JValue :=
  match parseJValue (2 * s.length + 4) s with
  | none => none
  | some (v, rest) => if rest.dropWhile jsonWs = [] then some v else none

/-- The values a sqlite row cell can hand the decoders: a byte blob, a
primitive scalar, or null. -/
inductive StorageValue where
  | bytes : List Nat → StorageValue
  | str : List Char → StorageValue
  | intv : Int → StorageValue
  | boolv : Bool → StorageValue
  | pynone : StorageValue
deriving DecidableEq

/-- Python truthiness (`not x`) for the storage values. -/
def pyFalsy : StorageValue → Bool
  | .bytes b => b.isEmpty
  | .str s => s.isEmpty
  | .intv n => n = 0
  | .boolv b => !b
  | .pynone => true

/-- Python exceptions that can reach the decoders' boundaries. -/
inductive PyErr where
  | typeError : PyErr
  | attributeError : PyErr
deriving DecidableEq

/-- Python `len(x)`: defined for byte and character sequences, a `TypeError`
for the other scalars. -/
def pyLen : StorageValue → Except PyErr Nat
  | .bytes b => .ok b.length
  | .str s => .ok s.length
  | _ => .error .typeError

/-- Python `x.decode('utf-8', errors='ignore')`: only byte sequences have a
`decode` method; anything else raises `AttributeError`. -/
def pyDecodeUtf8 : StorageValue → Except PyErr (List Char)
  | .bytes b => .ok (utf8Lossy b)
  | _ => .error .attributeError

/-- Python `x.hex()`: only byte sequences have it. -/
def pyHex : StorageValue → Except PyErr (List Char)
  | .bytes b => .ok (b.flatMap (fun n => [Char.ofNat n]))
  | _ => .error .attributeError

/- ## extract_firefox_extension_data.py -/

/-- Strategy 1 of `decode_key` in extract_firefox_extension_data.py: lossy
decode of the whole blob, strip NUL bytes from the ends, accept any non-empty
all-printable result (this version has no minimum-length check). -/
def efdDirectDecode (b : List Nat) : Option (List Char) :=
  let decoded := stripCharEnds (Char.ofNat 0) (utf8Lossy b)
  if decoded ≠ [] && decoded.all isPrintableChar then some decoded else none

/-- One iteration of the offset scan: lossy-decode the suffix at `off`,
keep printable characters, accept when at least two survive. -/
def efdOffsetStep (b : List Nat) (off : Nat) : Option (List Char) :=
  let cleaned := (utf8Lossy (b.drop off)).filter isPrintableChar
  if cleaned ≠ [] && cleaned.length ≥ 2 then some cleaned else none

/-- The offset scan of `decode_key`: offsets `off, off+1, ...` for `n`
iterations, first qualifying offset wins. -/
def efdOffsetScan (b : List Nat) : Nat → Nat → Option (List Char)
  | 0, _ => none
  | n + 1, off =>
    match efdOffsetStep b off with
    | some r => some r
    | none => efdOffsetScan b n (off + 1)

/-- `decode_key` of extract_firefox_extension_data.py.  Non-byte truthy
values are stringified with Python `str`; that rendering is abstracted as
`pyStr` below and only byte inputs are the subject of claims. -/
def pyStr : StorageValue → List Char
  | .bytes b => b.flatMap (fun n => [Char.ofNat n])
  | .str s => s
  | .intv n => cs (toString n)
  | .boolv b => if b then cs "True" else cs "False"
  | .pynone => cs "None"

def efdDecodeKey (v : StorageValue) : Option (List Char) :=
  if pyFalsy v then none
  else
    match v with
    | .bytes b =>
      match efdDirectDecode b with
      | some r => some r
      | none => efdOffsetScan b (min 20 b.length) 0
    | _ => some (pyStr v)

/-- Runs of printable-ASCII characters (`re.findall(r'[\x20-\x7e]{3,}', s)`
finds the maximal such runs; the length bound is applied by the caller). -/
def isAsciiPrintable (c : Char) : Bool :=
  0x20 ≤ c.toNat && c.toNat ≤ 0x7E

def printableRunsGo (acc : List Char) : List Char → List (List Char)
  | [] => if acc = [] then [] else [acc.reverse]
  | c :: t =>
    if isAsciiPrintable c then printableRunsGo (c :: acc) t
    else if acc = [] then printableRunsGo [] t
    else acc.reverse :: printableRunsGo [] t

def printableRuns (l : List Char) : List (List Char) :=
  printableRunsGo [] l

/-- `extract_readable_text` of extract_firefox_extension_data.py: maximal
printable-ASCII runs of length at least 3, each stripped, empty results
dropped. -/
def extractReadableText (v : StorageValue) : List (List Char) :=
  match v with
  | .bytes b =>
    let strings := (printableRuns (utf8Lossy b)).filter (fun r => 3 ≤ r.length)
    (strings.map stripWs).filter (· ≠ [])
  | _ => []

/- ## firefox_extension_storage_recovery.py, class BlobDecoder -/

/-- Strategy 1 of `BlobDecoder.decode_key`: the `try` block returns a value
only when the stripped decode is non-empty, of length at least 2, and fully
printable; an exception inside the block and a failed check both fall
through to strategy 2, so both are `none` here. -/
def bdStrat1 (v : StorageValue) : Option (List Char) :=
  match pyDecodeUtf8 v with
  | .error _ => none
  | .ok t =>
    let decoded := stripCharEnds (Char.ofNat 0) t
    if decoded ≠ [] && decoded.length ≥ 2 && decoded.all isPrintableChar then
      some decoded
    else none

/-- One iteration of strategy 2 of `BlobDecoder.decode_key`; the loop body is
wrapped in `try`/`except: continue`, so a non-byte value (whose slice has no
`decode`) simply yields nothing. -/
def bdStrat2Step (v : StorageValue) (off : Nat) : Option (List Char) :=
  match v with
  | .bytes b =>
    let cleaned := (utf8Lossy (b.drop off)).filter isPrintableChar
    if cleaned ≠ [] && cleaned.length ≥ 2 then some cleaned else none
  | _ => none

def bdStrat2 (v : StorageValue) : Nat → Nat → Option (List Char)
  | 0, _ => none
  | n + 1, off =>
    match bdStrat2Step v off with
    | some r => some r
    | none => bdStrat2 v n (off + 1)

/-- `BlobDecoder.decode_key`.  `range(min(20, len(key_blob)))` and
`key_blob.hex()` are evaluated outside any `try`, so their exceptions escape:
the whole method is in `Except`. -/
def bdDecodeKey (v : StorageValue) : Except PyErr (Option (List Char)) :=
  if pyFalsy v then .ok none
  else
    match bdStrat1 v with
    | some r => .ok (some r)
    | none =>
      match pyLen v with
      | .error e => .error e
      | .ok n =>
        match bdStrat2 v (min 20 n) 0 with
        | some r => .ok (some r)
        | none =>
          match pyHex v with
          | .error e => .error e
          | .ok _ => .ok none

/-- Scan left to right for the first `[` or opening brace. -/
def firstJsonStart : List Char → Option Nat
  | [] => none
  | c :: t =>
    if c = '[' || c = Char.ofNat 0x7B then some 0
    else (firstJsonStart t).map (· + 1)

/-- `BlobDecoder.decode_data`: everything after the falsiness test sits in a
`try`/`except Exception` returning `(None, None)`, so a non-byte truthy value
(whose `decode` raises) lands there; the inner `json.JSONDecodeError` handler
returns the full text with no parsed value. -/
def bdDecodeData (v : StorageValue) :
    Except PyErr (Option (List Char) × Option JValue) :=
  if pyFalsy v then .ok (none, none)
  else
    match pyDecodeUtf8 v with
    | .error _ => .ok (none, none)
    | .ok t =>
      match firstJsonStart t with
      | some i =>
        let candidate := t.drop i
        match jsonLoads candidate with
        | some parsed => .ok (some candidate, some parsed)
        | none => .ok (some t, none)
      | none => .ok (some t, none)

/- ## Field-position scanning (shared by extract_make_it_pop_data.py and
parse_indexeddb_structured.py) -/

/-- The standalone test both scripts apply at a candidate position: the
character before the match (if any) and the character after it (if any) must
not be alphanumeric. -/
def standaloneAt (decoded field : List Char) (pos : Nat) : Bool :=
  (pos = 0 || !isAlnumChar (decoded.getD (pos - 1) ' ')) &&
    (decoded.length ≤ pos + field.length ||
      !isAlnumChar (decoded.getD (pos + field.length) ' '))

/-- All standalone occurrences of one field name, in ascending position order
(the `while pos != -1` loop of parse_indexeddb_structured.py).  Each step
resumes the search at `pos + 1`, so `decoded.length + 2` fuel suffices. -/
def collectOccAux (decoded field : List Char) : Nat → Nat → List Nat
  | 0, _ => []
  | fuel + 1, start =>
    match findFrom field decoded start with
    | none => []
    | some p =>
      (if standaloneAt decoded field p then [p] else []) ++
        collectOccAux decoded field fuel (p + 1)

def collectOcc (decoded field : List Char) : List Nat :=
  collectOccAux decoded field (decoded.length + 2) 0

/-- The `(pos, field)` pairs parse_indexeddb_structured.py accumulates over
its whole field list. -/
def collectAllStandalone (decoded : List Char) (fields : List (List Char)) :
    List (Nat × List Char) :=
  fields.flatMap (fun f => (collectOcc decoded f).map (fun p => (p, f)))

/-- The first occurrence of each field, kept only when standalone (the
per-field `decoded.find(field)` of extract_make_it_pop_data.py; a field whose
first occurrence fails the standalone test is dropped even if a later
occurrence would pass). -/
def collectFirstStandalone (decoded : List Char) (fields : List (List Char)) :
    List (Nat × List Char) :=
  fields.flatMap (fun f =>
    match findSubAux f decoded with
    | none => []
    | some p => if standaloneAt decoded f p then [(p, f)] else [])

/-- Ordering used to sort the collected positions.  Python sorts the
`(pos, field)` tuples of parse_indexeddb_structured.py lexicographically and
the `dict.items()` of extract_make_it_pop_data.py by position alone; the two
coincide whenever positions are distinct, which holds for every field list
either script uses (no field name is a prefix of another up to an
alphanumeric boundary), so a single position ordering is used here. -/
def posLe (a b : Nat × List Char) : Prop := a.1 ≤ b.1

instance : DecidableRel posLe := fun a b => Nat.decLe a.1 b.1

instance : IsTotal (Nat × List Char) posLe := ⟨fun a b => Nat.le_total a.1 b.1⟩

instance : IsTrans (Nat × List Char) posLe := ⟨fun _ _ _ h1 h2 => le_trans h1 h2⟩

def sortPositions (ps : List (Nat × List Char)) : List (Nat × List Char) :=
  List.insertionSort posLe ps

/-- One field's span: the field name's position, and the next field's
position (end of text for the last field) as the exclusive end. -/
structure FieldSpan where
  name : List Char
  start : Nat
  stop : Nat
deriving DecidableEq

/-- Where a span ends: at the next collected position, or at `len` for the
last span. -/
def spansStop : List (Nat × List Char) → Nat → Nat
  | [], len => len
  | (q, _) :: _, _ => q

/-- Build the spans from the sorted position list: each span ends where the
next one starts; the last span ends at `len`. -/
def spansOf : List (Nat × List Char) → Nat → List FieldSpan
  | [], _ => []
  | (p, f) :: rest, len => ⟨f, p, spansStop rest len⟩ :: spansOf rest len

/-- The field-position scanner as parse_indexeddb_structured.py runs it
(all standalone occurrences). -/
def scanStructured (decoded : List Char) (fields : List (List Char)) :
    List FieldSpan :=
  spansOf (sortPositions (collectAllStandalone decoded fields)) decoded.length

/-- The field-position scanner as extract_make_it_pop_data.py runs it
(first occurrence of each field only). -/
def scanPop (decoded : List Char) (fields : List (List Char)) : List FieldSpan :=
  spansOf (sortPositions (collectFirstStandalone decoded fields)) decoded.length

/-- The value region of a span: the text between the end of the field name
and the start of the next field, filtered and stripped. -/
def extractValue (decoded : List Char) (sp : FieldSpan)
    (keep : Char → Bool) : List Char :=
  stripWs ((pySlice decoded (sp.start + sp.name.length) sp.stop).filter keep)

/-- Python-dict insertion: replace the value when the key is present, append
otherwise. -/
def dictInsert : List (List Char × List Char) → List Char → List Char →
    List (List Char × List Char)
  | [], k, v => [(k, v)]
  | (k', v') :: t, k, v =>
    if k' = k then (k', v) :: t else (k', v') :: dictInsert t k v

/- ## parse_indexeddb_structured.py -/

def knownFields : List (List Char) :=
  [cs "id", cs "name", cs "data", cs "value", cs "type", cs "enabled",
   cs "disabled", cs "url", cs "pattern", cs "regex", cs "rule", cs "rules",
   cs "config", cs "settings", cs "options", cs "preferences", cs "groups",
   cs "items", cs "list", cs "array", cs "timestamp", cs "date", cs "created",
   cs "updated", cs "modified", cs "title", cs "description", cs "category",
   cs "tags", cs "status"]

/-- The printable filter of parse_indexeddb_structured.py.  Its explicit
control-character blacklist is subsumed by `isprintable`, and its
space-preserving `elif` branch is unreachable because a space is itself
printable; the net filter is `isprintable`. -/
def psdKeep (c : Char) : Bool := isPrintableChar c

/-- One iteration of the field/value accumulation loop of
`parse_structured_data`: store the span's cleaned value unless it is empty or
is itself (lowercased) a known field name; values are truncated to 500
characters. -/
def psdStep (decoded : List Char) (acc : List (List Char × List Char))
    (sp : FieldSpan) : List (List Char × List Char) :=
  if extractValue decoded sp psdKeep ≠ [] &&
      !(knownFields.contains (toLowerList (extractValue decoded sp psdKeep))) then
    dictInsert acc sp.name ((extractValue decoded sp psdKeep).take 500)
  else acc

/-- The field/value accumulation loop of `parse_structured_data`. -/
def psdBuild (decoded : List Char) : List (List Char × List Char) :=
  (scanStructured decoded knownFields).foldl (psdStep decoded) []

/-- `parse_structured_data`: `None` for non-byte input and for an empty
result dictionary. -/
def parseStructuredData (v : StorageValue) :
    Option (List (List Char × List Char)) :=
  match v with
  | .bytes b =>
    let decoded := utf8Lossy b
    let result := psdBuild decoded
    if result = [] then none else some result
  | _ => none

/- ## extract_make_it_pop_data.py -/

def groupIndicators : List (List Char) :=
  [cs "lightBgColor", cs "darkBgColor", cs "phrases"]

def domainIndicators : List (List Char) := [cs "pattern", cs "groupIds"]

def groupFields : List (List Char) :=
  [cs "id", cs "name", cs "lightBgColor", cs "lightTextColor",
   cs "darkBgColor", cs "darkTextColor", cs "phrases"]

def domainFields : List (List Char) :=
  [cs "id", cs "pattern", cs "mode", cs "groupIds"]

/-- The Group test: at least two of the Group indicator names occur anywhere
in the decoded text. -/
def hasGroupFields (decoded : List Char) : Bool :=
  2 ≤ groupIndicators.countP (fun f => isSubstr f decoded)

/-- The Domain test exactly as the source computes it: the generator on
line 66 of extract_make_it_pop_data.py tests `field in domain_indicators`
(membership of each indicator in the indicator list itself) rather than
`field in decoded`, so the count is always 2 and the test is constant-true;
the `decoded` parameter is kept because the line has it in scope. -/
def hasDomainFields (decoded : List Char) : Bool :=
  let _ := decoded
  1 ≤ domainIndicators.countP (fun f => domainIndicators.contains f)

/-- The printable filter of extract_make_it_pop_data.py
(`c.isprintable() and ord(c) >= 32`). -/
def popKeep (c : Char) : Bool := isPrintableChar c && 32 ≤ c.toNat

/-- The leaked-suffix cleanup: for each field name in order, if the value
currently ends with that name, cut it off and strip again. -/
def stripLeakedSuffix (fields : List (List Char)) (valueText : List Char) :
    List Char :=
  fields.foldl
    (fun v f => if f.isSuffixOf v then stripWs (v.take (v.length - f.length)) else v)
    valueText

/-- `re.search(r'#[0-9A-Fa-f]{6,8}', s)`: the leftmost `#` followed by at
least six hexadecimal digits wins, and the greedy quantifier takes up to
eight of them. -/
def hexColorSearch : List Char → Option (List Char)
  | [] => none
  | c :: t =>
    if c = '#' && 6 ≤ (t.takeWhile isHexDigitChar).length then
      some ('#' :: (t.takeWhile isHexDigitChar).take 8)
    else hexColorSearch t

/-- The cleaned value of one span in extract_make_it_pop_data.py. -/
def popCleanValue (decoded : List Char) (fields : List (List Char))
    (sp : FieldSpan) : List Char :=
  stripLeakedSuffix fields (extractValue decoded sp popKeep)

/-- One iteration of the Group extraction loop: hex extraction for `*Color*`
fields (field omitted when no hex token is found), 200-character truncation
for the rest (the `phrases` arm of the source is kept explicit even though it
coincides with the default arm). -/
def popGroupStep (decoded : List Char) (acc : List (List Char × List Char))
    (sp : FieldSpan) : List (List Char × List Char) :=
  if popCleanValue decoded groupFields sp ≠ [] then
    if isSubstr (cs "Color") sp.name then
      match hexColorSearch (popCleanValue decoded groupFields sp) with
      | some hex => dictInsert acc sp.name hex
      | none => acc
    else if sp.name = cs "phrases" then
      dictInsert acc sp.name ((popCleanValue decoded groupFields sp).take 200)
    else dictInsert acc sp.name ((popCleanValue decoded groupFields sp).take 200)
  else acc

/-- The Group record. -/
def buildGroupRecord (decoded : List Char) : List (List Char × List Char) :=
  (scanPop decoded groupFields).foldl (popGroupStep decoded) []

/-- One iteration of the Domain extraction loop: the `mode` field is
normalised to `light`/`dark` by case-insensitive substring match (absent
otherwise), other fields truncated to 200 characters. -/
def popDomainStep (decoded : List Char) (acc : List (List Char × List Char))
    (sp : FieldSpan) : List (List Char × List Char) :=
  if popCleanValue decoded domainFields sp ≠ [] then
    if sp.name = cs "mode" then
      if isSubstr (cs "light") (toLowerList (popCleanValue decoded domainFields sp)) then
        dictInsert acc sp.name (cs "light")
      else if isSubstr (cs "dark") (toLowerList (popCleanValue decoded domainFields sp)) then
        dictInsert acc sp.name (cs "dark")
      else acc
    else dictInsert acc sp.name ((popCleanValue decoded domainFields sp).take 200)
  else acc

/-- The Domain record. -/
def buildDomainRecord (decoded : List Char) : List (List Char × List Char) :=
  (scanPop decoded domainFields).foldl (popDomainStep decoded) []

inductive PopType where
  | group : PopType
  | domain : PopType
deriving DecidableEq

/-- `parse_make_it_pop_entry`: classify, build the record, and apply the
acceptance rule (`id` or `name` for a Group, `pattern` for a Domain).  A
Group whose acceptance fails falls through to the final `return None, None`
because the Domain branch is an `elif`. -/
def parseMakeItPopEntry (v : StorageValue) :
    Option (PopType × List (List Char × List Char)) :=
  match v with
  | .bytes b =>
    let decoded := utf8Lossy b
    if hasGroupFields decoded then
      let group := buildGroupRecord decoded
      if (group.lookup (cs "id")).isSome || (group.lookup (cs "name")).isSome then
        some (.group, group)
      else none
    else if hasDomainFields decoded then
      let domain := buildDomainRecord decoded
      if (domain.lookup (cs "pattern")).isSome then some (.domain, domain)
      else none
    else none
  | _ => none

/- ## General lemmas about the embedded operations -/

lemma mem_of_mem_stripWs {c : Char} {l : List Char} (h : c ∈ stripWs l) :
    c ∈ l := by
  unfold stripWs at h
  rw [List.mem_reverse] at h
  have h2 := (List.dropWhile_sublist (l := (l.dropWhile isSpaceChar).reverse)
    (p := isSpaceChar)).subset h
  rw [List.mem_reverse] at h2
  exact (List.dropWhile_sublist (l := l) (p := isSpaceChar)).subset h2

lemma efdOffsetStep_shape {b : List Nat} {off : Nat} {r : List Char}
    (h : efdOffsetStep b off = some r) :
    r ≠ [] ∧ 2 ≤ r.length ∧ ∀ c ∈ r, isPrintableChar c := by
  unfold efdOffsetStep at h
  simp only [ne_eq, ge_iff_le, Bool.and_eq_true, decide_eq_true_eq,
    Option.ite_none_right_eq_some, Option.some.injEq] at h
  obtain ⟨⟨hne, hlen⟩, hr⟩ := h
  subst hr
  exact ⟨hne, hlen, fun c hc => (List.mem_filter.mp hc).2⟩

lemma efdOffsetScan_shape {b : List Nat} {r : List Char} :
    ∀ {n off : Nat}, efdOffsetScan b n off = some r →
      r ≠ [] ∧ 2 ≤ r.length ∧ ∀ c ∈ r, isPrintableChar c := by
  intro n
  induction n with
  | zero => intro off h; simp [efdOffsetScan] at h
  | succ m ih =>
    intro off h
    unfold efdOffsetScan at h
    cases hstep : efdOffsetStep b off with
    | some s =>
      rw [hstep] at h
      simp only [Option.some.injEq] at h
      subst h
      exact efdOffsetStep_shape hstep
    | none => rw [hstep] at h; exact ih h

lemma bdStrat2Step_shape {v : StorageValue} {off : Nat} {r : List Char}
    (h : bdStrat2Step v off = some r) :
    r ≠ [] ∧ 2 ≤ r.length ∧ ∀ c ∈ r, isPrintableChar c := by
  cases v with
  | bytes b =>
    unfold bdStrat2Step at h
    simp only [ne_eq, ge_iff_le, Bool.and_eq_true, decide_eq_true_eq,
      Option.ite_none_right_eq_some, Option.some.injEq] at h
    obtain ⟨⟨hne, hlen⟩, hr⟩ := h
    subst hr
    exact ⟨hne, hlen, fun c hc => (List.mem_filter.mp hc).2⟩
  | str s => simp [bdStrat2Step] at h
  | intv n => simp [bdStrat2Step] at h
  | boolv b => simp [bdStrat2Step] at h
  | pynone => simp [bdStrat2Step] at h

lemma bdStrat2_shape {v : StorageValue} {r : List Char} :
    ∀ {n off : Nat}, bdStrat2 v n off = some r →
      r ≠ [] ∧ 2 ≤ r.length ∧ ∀ c ∈ r, isPrintableChar c := by
  intro n
  induction n with
  | zero => intro off h; simp [bdStrat2] at h
  | succ m ih =>
    intro off h
    unfold bdStrat2 at h
    cases hstep : bdStrat2Step v off with
    | some s =>
      rw [hstep] at h
      simp only [Option.some.injEq] at h
      subst h
      exact bdStrat2Step_shape hstep
    | none => rw [hstep] at h; exact ih h

lemma efdDirectDecode_shape {b : List Nat} {r : List Char}
    (h : efdDirectDecode b = some r) :
    r ≠ [] ∧ ∀ c ∈ r, isPrintableChar c := by
  unfold efdDirectDecode at h
  simp only [ne_eq, Bool.and_eq_true, decide_eq_true_eq,
    Option.ite_none_right_eq_some, Option.some.injEq, List.all_eq_true] at h
  obtain ⟨⟨hne, hall⟩, hr⟩ := h
  subst hr
  exact ⟨hne, hall⟩

lemma bdStrat1_shape {v : StorageValue} {r : List Char}
    (h : bdStrat1 v = some r) :
    2 ≤ r.length ∧ ∀ c ∈ r, isPrintableChar c := by
  unfold bdStrat1 at h
  match hv : pyDecodeUtf8 v with
  | .error e => rw [hv] at h; simp at h
  | .ok t =>
    rw [hv] at h
    simp only [ne_eq, ge_iff_le, Bool.and_eq_true, decide_eq_true_eq,
      Option.ite_none_right_eq_some, Option.some.injEq, List.all_eq_true] at h
    obtain ⟨⟨⟨hne, hlen⟩, hall⟩, hr⟩ := h
    subst hr
    exact ⟨hlen, hall⟩

/- ## Claim C2: decodeKey returns null or a printable string -/

/-- C2 (amended): for every byte sequence, both key decoders return null or a
string made entirely of printable characters; `BlobDecoder.decode_key`
additionally guarantees length at least 2, while the extract-script
`decode_key` can return a length-1 string from its direct-decode strategy
(its offset scan still requires length at least 2). -/
theorem c2_decode_key_printable :
    (∀ (b : List Nat) (r : List Char), efdDecodeKey (.bytes b) = some r →
      r ≠ [] ∧ ∀ c ∈ r, isPrintableChar c) ∧
    (∀ (b : List Nat) (r : List Char), bdDecodeKey (.bytes b) = .ok (some r) →
      2 ≤ r.length ∧ ∀ c ∈ r, isPrintableChar c) := by
  constructor
  · intro b r h
    unfold efdDecodeKey at h
    by_cases hf : pyFalsy (.bytes b)
    · rw [if_pos hf] at h; simp at h
    · rw [if_neg hf] at h
      dsimp only at h
      cases hd : efdDirectDecode b with
      | some d =>
        rw [hd] at h
        simp only [Option.some.injEq] at h
        subst h
        exact efdDirectDecode_shape hd
      | none =>
        rw [hd] at h
        have := efdOffsetScan_shape h
        exact ⟨this.1, this.2.2⟩
  · intro b r h
    unfold bdDecodeKey at h
    by_cases hf : pyFalsy (.bytes b)
    · rw [if_pos hf] at h; simp at h
    · rw [if_neg hf] at h
      cases h1 : bdStrat1 (.bytes b) with
      | some d =>
        rw [h1] at h
        simp only [Except.ok.injEq, Option.some.injEq] at h
        subst h
        exact bdStrat1_shape h1
      | none =>
        rw [h1] at h
        simp only [pyLen] at h
        cases h2 : bdStrat2 (.bytes b) (min 20 b.length) 0 with
        | some d =>
          rw [h2] at h
          simp only [Except.ok.injEq, Option.some.injEq] at h
          subst h
          have := bdStrat2_shape h2
          exact ⟨this.2.1, this.2.2⟩
        | none =>
          rw [h2] at h
          simp only [pyHex] at h
          simp at h

/-- C2 counterexample: on the one-byte blob `b"a"` the extract-script
`decode_key` returns the length-1 string `"a"` through its direct-decode
strategy, so the claimed minimum length of 2 fails. -/
theorem c2_counterexample :
    efdDecodeKey (.bytes [97]) = some [( 'a' )] ∧
      ¬ 2 ≤ ([( 'a' )] : List Char).length := by
  constructor
  · rfl
  · decide

/-- C2 witness: the amended theorem applied to the key blob
`b"\x00\x01groups"`, on which both decoders return `"groups"`. -/
theorem c2_witness :
    ((cs "groups") ≠ [] ∧ ∀ c ∈ cs "groups", isPrintableChar c) ∧
      (2 ≤ (cs "groups").length ∧ ∀ c ∈ cs "groups", isPrintableChar c) :=
  ⟨c2_decode_key_printable.1 [0, 1, 103, 114, 111, 117, 112, 115]
      (cs "groups") rfl,
    c2_decode_key_printable.2 [0, 1, 103, 114, 111, 117, 112, 115]
      (cs "groups") rfl⟩

/- ## Claim C9: decodeKey on b"\x00\x01groups" -/

def c9KeyBlob : List Nat := [0, 1, 103, 114, 111, 117, 112, 115]

/-- C9: on the key blob `b"\x00\x01groups"` the full-blob printable decode
fails in both decoders (a control character survives the NUL strip), the
ascending offset scan qualifies already at offset 0 with the
printable-filtered suffix `"groups"` of length at least 2, and both
`decode_key` versions return `"groups"`. -/
theorem c9_decode_key_groups :
    efdDirectDecode c9KeyBlob = none ∧
      bdStrat1 (.bytes c9KeyBlob) = none ∧
      efdOffsetStep c9KeyBlob 0 = some (cs "groups") ∧
      bdStrat2Step (.bytes c9KeyBlob) 0 = some (cs "groups") ∧
      2 ≤ (cs "groups").length ∧
      efdDecodeKey (.bytes c9KeyBlob) = some (cs "groups") ∧
      bdDecodeKey (.bytes c9KeyBlob) = .ok (some (cs "groups")) := by
  refine ⟨rfl, rfl, rfl, rfl, by decide, rfl, rfl⟩

/- ## Claim C3: the decoders do not raise past their boundary -/

/-- C3 (amended): `BlobDecoder.decode_data` returns normally (a pair of
optionals) on every storage value, and `BlobDecoder.decode_key` returns
normally (a string-or-null) on every byte sequence and on null; on truthy
non-byte scalars `decode_key` raises, because `len(key_blob)` and
`key_blob.hex()` are evaluated outside any `try`. -/
theorem c3_decode_no_raise :
    (∀ b : List Nat, ∃ r, bdDecodeKey (.bytes b) = .ok r) ∧
      bdDecodeKey .pynone = .ok none ∧
      (∀ v : StorageValue, ∃ r, bdDecodeData v = .ok r) := by
  refine ⟨?_, rfl, ?_⟩
  · intro b
    unfold bdDecodeKey
    by_cases hf : pyFalsy (.bytes b)
    · rw [if_pos hf]; exact ⟨none, rfl⟩
    · rw [if_neg hf]
      cases h1 : bdStrat1 (.bytes b) with
      | some d => exact ⟨some d, rfl⟩
      | none =>
        simp only [pyLen]
        cases h2 : bdStrat2 (.bytes b) (min 20 b.length) 0 with
        | some d => exact ⟨some d, rfl⟩
        | none => simp only [pyHex]; exact ⟨none, rfl⟩
  · intro v
    unfold bdDecodeData
    by_cases hf : pyFalsy v
    · rw [if_pos hf]; exact ⟨(none, none), rfl⟩
    · rw [if_neg hf]
      cases hd : pyDecodeUtf8 v with
      | error e => exact ⟨(none, none), rfl⟩
      | ok t =>
        dsimp only
        cases hj : firstJsonStart t with
        | some i =>
          dsimp only
          cases hl : jsonLoads (t.drop i) with
          | some parsed => exact ⟨(some (t.drop i), some parsed), rfl⟩
          | none => exact ⟨(some t, none), rfl⟩
        | none => exact ⟨(some t, none), rfl⟩

/-- C3 counterexample: `BlobDecoder.decode_key` raises `TypeError` on the
integer 5 (from `len`) and `AttributeError` on the string `"ab"` (from
`.hex()`), both escaping the method. -/
theorem c3_counterexample :
    bdDecodeKey (.intv 5) = .error .typeError ∧
      bdDecodeKey (.str (cs "ab")) = .error .attributeError :=
  ⟨rfl, rfl⟩

/- ## Claim C4: decodeData finds and parses the embedded JSON -/

def c4DataBlob : List Nat := [0, 0, 1, 0] ++ (cs "\x7b\"a\":1\x7d").map Char.toNat

/-- C4: whenever the lossy-decoded text of a byte blob has its first `[` or
opening brace at index `s`, `decode_data` returns `(text[s:], parsed)` when
`text[s:]` parses as JSON and `(text, null)` when it does not; in particular
on `b"\x00\x00\x01\x00{"a":1}"` it returns the preview starting at the brace
and the parsed mapping. -/
theorem c4_decode_data :
    (∀ (b : List Nat) (s : Nat), firstJsonStart (utf8Lossy b) = some s →
      (∀ v, jsonLoads ((utf8Lossy b).drop s) = some v →
        bdDecodeData (.bytes b) = .ok (some ((utf8Lossy b).drop s), some v)) ∧
      (jsonLoads ((utf8Lossy b).drop s) = none →
        bdDecodeData (.bytes b) = .ok (some (utf8Lossy b), none))) ∧
      bdDecodeData (.bytes c4DataBlob) =
        .ok (some (cs "\x7b\"a\":1\x7d"), some (JValue.jobj [(cs "a", JValue.jnum 1)])) := by
  constructor
  · intro b s hs
    have hb : b ≠ [] := by
      intro hb0
      subst hb0
      rw [utf8Lossy_nil] at hs
      simp [firstJsonStart] at hs
    have hf : ¬ pyFalsy (.bytes b) = true := by
      simp [pyFalsy, List.isEmpty_iff, hb]
    constructor
    · intro v hv
      unfold bdDecodeData
      rw [if_neg hf]
      simp only [pyDecodeUtf8]
      rw [hs]
      dsimp only
      rw [hv]
    · intro hv
      unfold bdDecodeData
      rw [if_neg hf]
      simp only [pyDecodeUtf8]
      rw [hs]
      dsimp only
      rw [hv]
  · rfl

/-- C4 witness: the general statement applied to the scenario blob
`b"\x00\x00\x01\x00{"a":1}"` with the brace at index 4. -/
theorem c4_witness :
    bdDecodeData (.bytes c4DataBlob) =
      .ok (some ((utf8Lossy c4DataBlob).drop 4),
        some (JValue.jobj [(cs "a", JValue.jnum 1)])) :=
  (c4_decode_data.1 c4DataBlob 4 rfl).1 (JValue.jobj [(cs "a", JValue.jnum 1)]) rfl

/- ## Claim C7: minimum length of extracted readable strings -/

lemma printableRunsGo_chars {P : Char → Prop} :
    ∀ (l acc : List Char), (∀ c ∈ acc, P c) → (∀ c ∈ l, isAsciiPrintable c → P c) →
      ∀ r ∈ printableRunsGo acc l, ∀ c ∈ r, P c := by
  intro l
  induction l with
  | nil =>
    intro acc hacc _ r hr c hc
    unfold printableRunsGo at hr
    split at hr
    · simp at hr
    · simp only [List.mem_singleton] at hr
      subst hr
      exact hacc c (List.mem_reverse.mp hc)
  | cons x t ih =>
    intro acc hacc hl r hr c hc
    unfold printableRunsGo at hr
    by_cases hx : isAsciiPrintable x
    · rw [if_pos hx] at hr
      refine ih (x :: acc) ?_ (fun d hd hdp => hl d (List.mem_cons_of_mem x hd) hdp) r hr c hc
      intro d hd
      rcases List.mem_cons.mp hd with h | h
      · subst h; exact hl d (List.mem_cons_self d t) hx
      · exact hacc d h
    · rw [if_neg hx] at hr
      by_cases hacc0 : acc = []
      · rw [if_pos hacc0] at hr
        exact ih [] (by simp) (fun d hd hdp => hl d (List.mem_cons_of_mem x hd) hdp) r hr c hc
      · rw [if_neg hacc0] at hr
        rcases List.mem_cons.mp hr with h | h
        · subst h
          exact hacc c (List.mem_reverse.mp hc)
        · exact ih [] (by simp) (fun d hd hdp => hl d (List.mem_cons_of_mem x hd) hdp) r h c hc

lemma printableRuns_chars {l : List Char} {r : List Char}
    (hr : r ∈ printableRuns l) : ∀ c ∈ r, isAsciiPrintable c := by
  intro c hc
  exact printableRunsGo_chars l [] (by simp) (fun _ _ h => h) r hr c hc

/-- C7 (amended): every string returned by `extract_readable_text` is
non-empty and printable ASCII, and is the whitespace trim of a maximal
printable run of length at least 3 — but the trim itself can be shorter
than 3, so the configured minimum applies to the raw run, not the returned
string. -/
theorem c7_readable_text :
    ∀ (b : List Nat) (s : List Char), s ∈ extractReadableText (.bytes b) →
      s ≠ [] ∧ (∀ c ∈ s, isAsciiPrintable c) ∧
      ∃ r ∈ printableRuns (utf8Lossy b), 3 ≤ r.length ∧ s = stripWs r := by
  intro b s hs
  unfold extractReadableText at hs
  simp only [List.mem_filter, List.mem_map, ne_eq, decide_not] at hs
  obtain ⟨⟨r, ⟨hrruns, hrlen⟩, hrs⟩, hne⟩ := hs
  subst hrs
  refine ⟨by simpa using hne, ?_, r, hrruns, by simpa using hrlen, rfl⟩
  intro c hc
  exact printableRuns_chars hrruns c (mem_of_mem_stripWs hc)

/-- C7 counterexample: the blob `b"\x00 ab\x00"` produces the maximal run
`" ab"` of length 3, whose trim `"ab"` has length 2, so the extractor does
return a string shorter than the minimum run length. -/
theorem c7_counterexample :
    extractReadableText (.bytes [0, 32, 97, 98, 0]) = [cs "ab"] ∧
      ¬ 3 ≤ (cs "ab").length := by
  constructor
  · rfl
  · decide

/-- C7 witness: the amended theorem applied to the blob `b"abc"`, whose only
returned string is `"abc"`. -/
theorem c7_witness :
    cs "abc" ≠ [] ∧ (∀ c ∈ cs "abc", isAsciiPrintable c) ∧
      ∃ r ∈ printableRuns (utf8Lossy [97, 98, 99]), 3 ≤ r.length ∧
        cs "abc" = stripWs r :=
  c7_readable_text [97, 98, 99] (cs "abc") (by decide)

/- ## Claim C1: schema selection thresholds -/

def c1FailingBlob : List Nat := [104, 101, 108, 108, 111]

/-- C1 (code divergence): on the blob `b"hello"` the source's Domain test is
true although no Domain indicator occurs in the decoded text (indicator
count 0, below the claimed threshold 1), because line 66 of
extract_make_it_pop_data.py counts `field in domain_indicators` instead of
`field in decoded`; the Group test is false, so the classifier enters the
Domain branch, whose acceptance rule then rejects the record. -/
theorem c1_domain_indicator_bug :
    hasDomainFields (utf8Lossy c1FailingBlob) = true ∧
      domainIndicators.countP (fun f => isSubstr f (utf8Lossy c1FailingBlob)) = 0 ∧
      hasGroupFields (utf8Lossy c1FailingBlob) = false ∧
      parseMakeItPopEntry (.bytes c1FailingBlob) = none := by
  refine ⟨rfl, rfl, rfl, rfl⟩

/- ## Claim C5: the Group colour scenario -/

def c5ClaimBlob : List Nat :=
  (cs "lightBgColor#1a2b3cdarkBgColor#4d5e6fphrasesfoo,bar").map Char.toNat

/-- C5 counterexample: a blob whose decoded text is exactly the substring
named by the claim; `darkBgColor` and `phrases` fail the standalone check
(each is preceded by a hexadecimal letter) and no `id`/`name` field exists,
so classification returns `(None, None)` rather than a Group record. -/
theorem c5_counterexample :
    isSubstr (cs "lightBgColor#1a2b3cdarkBgColor#4d5e6fphrasesfoo,bar")
        (utf8Lossy c5ClaimBlob) = true ∧
      parseMakeItPopEntry (.bytes c5ClaimBlob) = none := by
  refine ⟨rfl, rfl⟩

def c5AmendedBlob : List Nat :=
  (cs "name\x00alice\x00lightBgColor\x00#1a2b3c\x00darkBgColor\x00#4d5e6f\x00phrases\x00foo,bar").map
    Char.toNat

def c5Record : List (List Char × List Char) :=
  [(cs "name", cs "alice"), (cs "lightBgColor", cs "#1a2b3c"),
   (cs "darkBgColor", cs "#4d5e6f"), (cs "phrases", cs "foo,bar")]

/-- C5 (amended): with the field values delimited by non-alphanumeric bytes
(as the serialized records actually are) and a `name` key field present, a
blob carrying `lightBgColor #1a2b3c`, `darkBgColor #4d5e6f` and `phrases`
classifies as a Group and the record maps `lightBgColor` to `"#1a2b3c"` and
`darkBgColor` to `"#4d5e6f"`; with the claim's undelimited concatenation and
no key field the same parser returns `(None, None)`. -/
theorem c5_group_scenario :
    parseMakeItPopEntry (.bytes c5AmendedBlob) = some (.group, c5Record) ∧
      c5Record.lookup (cs "lightBgColor") = some (cs "#1a2b3c") ∧
      c5Record.lookup (cs "darkBgColor") = some (cs "#4d5e6f") := by
  refine ⟨rfl, rfl, rfl⟩

/- ## Structural lemmas for the record builders and the scanner -/

lemma dictInsert_mem {acc : List (List Char × List Char)} {k v : List Char}
    {x : List Char × List Char} (h : x ∈ dictInsert acc k v) :
    (x.1 = k ∧ x.2 = v) ∨ x ∈ acc := by
  induction acc with
  | nil =>
    unfold dictInsert at h
    simp only [List.mem_singleton] at h
    subst h
    exact Or.inl ⟨rfl, rfl⟩
  | cons hd tl ih =>
    unfold dictInsert at h
    by_cases hk : hd.1 = k
    · rw [if_pos hk] at h
      rcases List.mem_cons.mp h with h | h
      · subst h; exact Or.inl ⟨hk, rfl⟩
      · exact Or.inr (List.mem_cons_of_mem hd h)
    · rw [if_neg hk] at h
      rcases List.mem_cons.mp h with h | h
      · subst h; exact Or.inr (List.mem_cons_self hd tl)
      · rcases ih h with h2 | h2
        · exact Or.inl h2
        · exact Or.inr (List.mem_cons_of_mem hd h2)

lemma foldl_preserves_mem {α : Type} (P : List Char × List Char → Prop)
    (Q : α → Prop) (step : List (List Char × List Char) → α → List (List Char × List Char))
    (hstep : ∀ acc a, Q a → (∀ x ∈ acc, P x) → ∀ x ∈ step acc a, P x) :
    ∀ (l : List α), (∀ a ∈ l, Q a) →
      ∀ acc, (∀ x ∈ acc, P x) → ∀ x ∈ l.foldl step acc, P x := by
  intro l
  induction l with
  | nil => intro _ acc hacc x hx; exact hacc x hx
  | cons hd tl ih =>
    intro hq acc hacc x hx
    simp only [List.foldl_cons] at hx
    exact ih (fun a ha => hq a (List.mem_cons_of_mem hd ha))
      (step acc hd) (hstep acc hd (hq hd (List.mem_cons_self hd tl)) hacc) x hx

lemma hexColorSearch_shape {v hx : List Char} (h : hexColorSearch v = some hx) :
    ∃ ds, hx = '#' :: ds ∧ 6 ≤ ds.length ∧ ds.length ≤ 8 ∧
      ∀ c ∈ ds, isHexDigitChar c := by
  induction v with
  | nil => simp [hexColorSearch] at h
  | cons c t ih =>
    unfold hexColorSearch at h
    by_cases hc : (c = '#' && 6 ≤ (t.takeWhile isHexDigitChar).length) = true
    · rw [if_pos hc] at h
      simp only [Option.some.injEq] at h
      subst h
      simp only [Bool.and_eq_true, decide_eq_true_eq] at hc
      refine ⟨(t.takeWhile isHexDigitChar).take 8, rfl, ?_, ?_, ?_⟩
      · rw [List.length_take]; omega
      · rw [List.length_take]; omega
      · intro d hd
        exact List.mem_takeWhile_imp (List.mem_of_mem_take hd)
    · rw [if_neg hc] at h
      exact ih h

lemma mem_spansOf_name {sp : FieldSpan} :
    ∀ {ps : List (Nat × List Char)} {len : Nat}, sp ∈ spansOf ps len →
      ∃ p, (p, sp.name) ∈ ps := by
  intro ps
  induction ps with
  | nil => intro len h; simp [spansOf] at h
  | cons hd tl ih =>
    intro len h
    unfold spansOf at h
    rcases List.mem_cons.mp h with h | h
    · subst h
      exact ⟨hd.1, by simp⟩
    · obtain ⟨p, hp⟩ := ih h
      exact ⟨p, List.mem_cons_of_mem _ hp⟩

lemma collectFirstStandalone_name {decoded : List Char}
    {fields : List (List Char)} {p : Nat} {f : List Char}
    (h : (p, f) ∈ collectFirstStandalone decoded fields) : f ∈ fields := by
  unfold collectFirstStandalone at h
  rw [List.mem_flatMap] at h
  obtain ⟨g, hg, hmem⟩ := h
  cases hfind : findSubAux g decoded with
  | none => rw [hfind] at hmem; simp at hmem
  | some q =>
    rw [hfind] at hmem
    dsimp only at hmem
    by_cases hsa : standaloneAt decoded g q = true
    · rw [if_pos hsa] at hmem
      simp only [List.mem_singleton, Prod.mk.injEq] at hmem
      rw [hmem.2]; exact hg
    · rw [if_neg hsa] at hmem
      simp at hmem

lemma scanPop_name_mem {decoded : List Char} {fields : List (List Char)}
    {sp : FieldSpan} (h : sp ∈ scanPop decoded fields) : sp.name ∈ fields := by
  unfold scanPop at h
  obtain ⟨p, hp⟩ := mem_spansOf_name h
  unfold sortPositions at hp
  rw [List.mem_insertionSort] at hp
  exact collectFirstStandalone_name hp

/- ## Claim C6: colour fields hold one hex token -/

/-- Shape of a stored colour value: a `#` followed by 6 to 8 hex digits and
nothing else. -/
def hexShape (v : List Char) : Prop :=
  ∃ ds, v = '#' :: ds ∧ 6 ≤ ds.length ∧ ds.length ≤ 8 ∧
    ∀ c ∈ ds, isHexDigitChar c

/-- Invariant carried through the record builders: any field whose name
contains `Color` holds a hex token. -/
def colorInv (kv : List Char × List Char) : Prop :=
  isSubstr (cs "Color") kv.1 = true → hexShape kv.2

lemma popGroupStep_preserves (decoded : List Char)
    (acc : List (List Char × List Char)) (sp : FieldSpan)
    (hacc : ∀ x ∈ acc, colorInv x) :
    ∀ x ∈ popGroupStep decoded acc sp, colorInv x := by
  intro x hx
  unfold popGroupStep at hx
  by_cases h1 : popCleanValue decoded groupFields sp ≠ []
  · rw [if_pos h1] at hx
    by_cases h2 : isSubstr (cs "Color") sp.name = true
    · rw [if_pos h2] at hx
      cases hh : hexColorSearch (popCleanValue decoded groupFields sp) with
      | some hex =>
        rw [hh] at hx
        rcases dictInsert_mem hx with ⟨_, hv⟩ | hmem
        · intro _; rw [hv]; exact hexColorSearch_shape hh
        · exact hacc x hmem
      | none => rw [hh] at hx; exact hacc x hx
    · rw [if_neg h2] at hx
      have hnotcolor : ∀ v, x ∈ dictInsert acc sp.name v → colorInv x := by
        intro v hxv
        rcases dictInsert_mem hxv with ⟨hk, _⟩ | hmem
        · intro hcol; rw [hk] at hcol; exact absurd hcol h2
        · exact hacc x hmem
      by_cases h3 : sp.name = cs "phrases"
      · rw [if_pos h3] at hx; exact hnotcolor _ hx
      · rw [if_neg h3] at hx; exact hnotcolor _ hx
  · rw [if_neg h1] at hx
    exact hacc x hx

lemma popDomainStep_preserves (decoded : List Char)
    (acc : List (List Char × List Char)) (sp : FieldSpan)
    (hq : sp.name ∈ domainFields) (hacc : ∀ x ∈ acc, colorInv x) :
    ∀ x ∈ popDomainStep decoded acc sp, colorInv x := by
  have hnc : isSubstr (cs "Color") sp.name ≠ true := by
    have hq2 : sp.name = cs "id" ∨ sp.name = cs "pattern" ∨
        sp.name = cs "mode" ∨ sp.name = cs "groupIds" := by
      simpa [domainFields] using hq
    rcases hq2 with h | h | h | h
    · rw [h]; decide
    · rw [h]; decide
    · rw [h]; decide
    · rw [h]; decide
  intro x hx
  unfold popDomainStep at hx
  have hnotcolor : ∀ v, x ∈ dictInsert acc sp.name v → colorInv x := by
    intro v hxv
    rcases dictInsert_mem hxv with ⟨hk, _⟩ | hmem
    · intro hcol; rw [hk] at hcol; exact absurd hcol hnc
    · exact hacc x hmem
  by_cases h1 : popCleanValue decoded domainFields sp ≠ []
  · rw [if_pos h1] at hx
    by_cases h2 : sp.name = cs "mode"
    · rw [if_pos h2] at hx
      by_cases h3 : isSubstr (cs "light")
          (toLowerList (popCleanValue decoded domainFields sp)) = true
      · rw [if_pos h3] at hx; exact hnotcolor _ hx
      · rw [if_neg h3] at hx
        by_cases h4 : isSubstr (cs "dark")
            (toLowerList (popCleanValue decoded domainFields sp)) = true
        · rw [if_pos h4] at hx; exact hnotcolor _ hx
        · rw [if_neg h4] at hx; exact hacc x hx
    · rw [if_neg h2] at hx; exact hnotcolor _ hx
  · rw [if_neg h1] at hx
    exact hacc x hx

lemma buildGroupRecord_colorInv (decoded : List Char) :
    ∀ x ∈ buildGroupRecord decoded, colorInv x := by
  unfold buildGroupRecord
  exact foldl_preserves_mem colorInv (fun _ => True) (popGroupStep decoded)
    (fun acc sp _ hacc => popGroupStep_preserves decoded acc sp hacc)
    (scanPop decoded groupFields) (fun _ _ => trivial) [] (by simp)

lemma buildDomainRecord_colorInv (decoded : List Char) :
    ∀ x ∈ buildDomainRecord decoded, colorInv x := by
  unfold buildDomainRecord
  exact foldl_preserves_mem colorInv (fun sp => sp.name ∈ domainFields)
    (popDomainStep decoded)
    (fun acc sp hq hacc => popDomainStep_preserves decoded acc sp hq hacc)
    (scanPop decoded domainFields) (fun sp hsp => scanPop_name_mem hsp) [] (by simp)

/-- C6 (amended): in every classified record, a field whose name contains
`Color` holds exactly one token of `#` followed by 6 to 8 hexadecimal digits
(the regex `{6,8}` also admits 7, which the claim's "exactly 6 or exactly 8"
excludes); everything else in the value region is discarded. -/
theorem c6_color_fields_hex :
    ∀ (b : List Nat) (tag : PopType) (rec : List (List Char × List Char)),
      parseMakeItPopEntry (.bytes b) = some (tag, rec) →
      ∀ kv ∈ rec, isSubstr (cs "Color") kv.1 = true → hexShape kv.2 := by
  intro b tag rec h kv hkv hcol
  unfold parseMakeItPopEntry at h
  dsimp only at h
  by_cases hg : hasGroupFields (utf8Lossy b) = true
  · rw [if_pos hg] at h
    by_cases hacc : (((buildGroupRecord (utf8Lossy b)).lookup (cs "id")).isSome ||
        ((buildGroupRecord (utf8Lossy b)).lookup (cs "name")).isSome) = true
    · rw [if_pos hacc] at h
      simp only [Option.some.injEq, Prod.mk.injEq] at h
      have hrec : rec = buildGroupRecord (utf8Lossy b) := h.2.symm
      subst hrec
      exact buildGroupRecord_colorInv (utf8Lossy b) kv hkv hcol
    · rw [if_neg hacc] at h; simp at h
  · rw [if_neg hg] at h
    by_cases hd : hasDomainFields (utf8Lossy b) = true
    · rw [if_pos hd] at h
      by_cases hacc : ((buildDomainRecord (utf8Lossy b)).lookup (cs "pattern")).isSome = true
      · rw [if_pos hacc] at h
        simp only [Option.some.injEq, Prod.mk.injEq] at h
        have hrec : rec = buildDomainRecord (utf8Lossy b) := h.2.symm
        subst hrec
        exact buildDomainRecord_colorInv (utf8Lossy b) kv hkv hcol
      · rw [if_neg hacc] at h; simp at h
    · rw [if_neg hd] at h; simp at h

def c6Blob : List Nat :=
  (cs "name\x00bob\x00lightBgColor\x00#1234567\x00darkBgColor\x00#abcdef0").map
    Char.toNat

/-- C6 counterexample: a classified Group record whose colour fields hold a
`#` followed by seven hexadecimal digits — the greedy `{6,8}` quantifier
matched 7 — contradicting the claimed "exactly 6 or exactly 8". -/
theorem c6_counterexample :
    parseMakeItPopEntry (.bytes c6Blob) =
      some (.group, [(cs "name", cs "bob"), (cs "lightBgColor", cs "#1234567"),
        (cs "darkBgColor", cs "#abcdef0")]) ∧
      isSubstr (cs "Color") (cs "lightBgColor") = true ∧
      cs "#1234567" = '#' :: cs "1234567" ∧
      (cs "1234567").length = 7 ∧
      ¬((cs "1234567").length = 6 ∨ (cs "1234567").length = 8) := by
  refine ⟨rfl, rfl, rfl, rfl, by decide⟩

/-- C6 witness: the amended theorem applied to the delimited Group blob,
whose `lightBgColor` value `"#1a2b3c"` indeed has the hex shape. -/
theorem c6_witness : hexShape (cs "#1a2b3c") :=
  c6_color_fields_hex c5AmendedBlob .group c5Record rfl
    (cs "lightBgColor", cs "#1a2b3c") (by decide) rfl

/- ## Claim C8: spans are ordered, contiguous and end at end-of-text -/

/-- The span invariant: adjacent spans are contiguous (`stop` of one is the
`start`, i.e. the field-name position, of the next) with non-decreasing
starts, the last span stops at `len`, and every span is a well-formed
half-open range. -/
def goodSpans (spans : List FieldSpan) (len : Nat) : Prop :=
  List.Chain' (fun a b => a.stop = b.start ∧ a.start ≤ b.start) spans ∧
    (∀ sp, spans.getLast? = some sp → sp.stop = len) ∧
    ∀ sp ∈ spans, sp.start ≤ sp.stop

lemma collectOccAux_le {decoded field : List Char} :
    ∀ {fuel start p : Nat}, p ∈ collectOccAux decoded field fuel start →
      p ≤ decoded.length := by
  intro fuel
  induction fuel with
  | zero => intro start p h; simp [collectOccAux] at h
  | succ m ih =>
    intro start p h
    unfold collectOccAux at h
    cases hfind : findFrom field decoded start with
    | none => rw [hfind] at h; simp at h
    | some q =>
      rw [hfind] at h
      rw [List.mem_append] at h
      rcases h with h | h
      · split at h
        · simp only [List.mem_singleton] at h
          subst h
          exact findFrom_le_length hfind
        · simp at h
      · exact ih h

lemma collectAllStandalone_le {decoded : List Char} {fields : List (List Char)}
    {x : Nat × List Char} (h : x ∈ collectAllStandalone decoded fields) :
    x.1 ≤ decoded.length := by
  unfold collectAllStandalone at h
  rw [List.mem_flatMap] at h
  obtain ⟨f, _, hmem⟩ := h
  rw [List.mem_map] at hmem
  obtain ⟨p, hp, hx⟩ := hmem
  rw [← hx]
  exact collectOccAux_le hp

lemma collectFirstStandalone_le {decoded : List Char} {fields : List (List Char)}
    {x : Nat × List Char} (h : x ∈ collectFirstStandalone decoded fields) :
    x.1 ≤ decoded.length := by
  unfold collectFirstStandalone at h
  rw [List.mem_flatMap] at h
  obtain ⟨f, _, hmem⟩ := h
  cases hfind : findSubAux f decoded with
  | none => rw [hfind] at hmem; simp at hmem
  | some q =>
    rw [hfind] at hmem
    dsimp only at hmem
    split at hmem
    · simp only [List.mem_singleton] at hmem
      rw [hmem]
      exact findSubAux_le_length hfind
    · simp at hmem

lemma spansOf_cons (p : Nat) (f : List Char) (rest : List (Nat × List Char))
    (len : Nat) :
    spansOf ((p, f) :: rest) len =
      ⟨f, p, spansStop rest len⟩ :: spansOf rest len := rfl

lemma spansOf_good :
    ∀ (ps : List (Nat × List Char)) (len : Nat), List.Sorted posLe ps →
      (∀ p ∈ ps, p.1 ≤ len) → goodSpans (spansOf ps len) len := by
  intro ps
  induction ps with
  | nil =>
    intro len _ _
    refine ⟨List.chain'_nil, ?_, by simp [spansOf]⟩
    intro sp h
    simp [spansOf] at h
  | cons hd tl ih =>
    intro len hsort hbound
    obtain ⟨p, f⟩ := hd
    cases tl with
    | nil =>
      refine ⟨List.chain'_singleton _, ?_, ?_⟩
      · intro sp h
        simp only [spansOf, spansStop, List.getLast?_singleton,
          Option.some.injEq] at h
        rw [← h]
      · intro sp hsp
        simp only [spansOf, List.mem_singleton] at hsp
        subst hsp
        exact hbound (p, f) (List.mem_cons_self _ _)
    | cons q t =>
      obtain ⟨hrel, hsort2⟩ := List.pairwise_cons.mp hsort
      have hpq : p ≤ q.1 := hrel q (List.mem_cons_self q t)
      obtain ⟨ihchain, ihlast, ihmem⟩ := ih len hsort2
        (fun x hx => hbound x (List.mem_cons_of_mem _ hx))
      obtain ⟨q1, q2⟩ := q
      refine ⟨?_, ?_, ?_⟩
      · rw [spansOf_cons, spansOf_cons, List.chain'_cons]
        exact ⟨⟨rfl, hpq⟩, ihchain⟩
      · intro sp h
        rw [spansOf_cons, spansOf_cons, List.getLast?_cons_cons] at h
        exact ihlast sp h
      · intro sp hsp
        rw [spansOf_cons] at hsp
        rcases List.mem_cons.mp hsp with h | h
        · subst h
          exact hpq
        · exact ihmem sp h

/-- C8: for every text and field list, both field-position scanners produce
spans that are ordered by ascending start offset, contiguous (each span's end
is the next span's field-name position), non-overlapping, and the last span
ends at end-of-text. -/
theorem c8_field_spans :
    ∀ (decoded : List Char) (fields : List (List Char)),
      goodSpans (scanStructured decoded fields) decoded.length ∧
      goodSpans (scanPop decoded fields) decoded.length := by
  intro decoded fields
  constructor
  · unfold scanStructured
    apply spansOf_good
    · exact List.sorted_insertionSort posLe _
    · intro x hx
      unfold sortPositions at hx
      rw [List.mem_insertionSort] at hx
      exact collectAllStandalone_le hx
  · unfold scanPop
    apply spansOf_good
    · exact List.sorted_insertionSort posLe _
    · intro x hx
      unfold sortPositions at hx
      rw [List.mem_insertionSort] at hx
      exact collectFirstStandalone_le hx

/-- C8 witness: on the text `"id\x00hello name\x01x"` the structured scanner
produces the spans `(id, 0, 9)` and `(name, 9, 15)`; the theorem instantiated
there gives that the last span stops at the text length and that each span is
well-formed. -/
theorem c8_witness :
    (FieldSpan.mk (cs "name") 9 15).stop = (cs "id\x00hello name\x01x").length ∧
      (FieldSpan.mk (cs "name") 9 15).start ≤ (FieldSpan.mk (cs "name") 9 15).stop :=
  ⟨(c8_field_spans (cs "id\x00hello name\x01x") knownFields).1.2.1
      (FieldSpan.mk (cs "name") 9 15) rfl,
    (c8_field_spans (cs "id\x00hello name\x01x") knownFields).1.2.2
      (FieldSpan.mk (cs "name") 9 15) (by decide)⟩

/- ## Claim C10: structured records hold no field-name values and are
never empty -/

/-- Invariant of the structured-record loop: no stored value is, lowercased,
itself a known field name. -/
def notFieldName (kv : List Char × List Char) : Prop :=
  toLowerList kv.2 ∉ knownFields

lemma psdStep_preserves (decoded : List Char)
    (acc : List (List Char × List Char)) (sp : FieldSpan)
    (hacc : ∀ x ∈ acc, notFieldName x) :
    ∀ x ∈ psdStep decoded acc sp, notFieldName x := by
  intro x hx
  unfold psdStep at hx
  by_cases hg : (extractValue decoded sp psdKeep ≠ [] &&
      !(knownFields.contains (toLowerList (extractValue decoded sp psdKeep)))) = true
  · rw [if_pos hg] at hx
    rcases dictInsert_mem hx with ⟨_, hv⟩ | hmem
    · unfold notFieldName
      rw [hv]
      simp only [Bool.and_eq_true, Bool.not_eq_true', ne_eq, decide_not,
        Bool.not_eq_true, decide_eq_false_iff_not] at hg
      obtain ⟨hne, hcont⟩ := hg
      by_cases hlen : (extractValue decoded sp psdKeep).length ≤ 500
      · rw [List.take_of_length_le hlen]
        intro hmem2
        have : knownFields.contains (toLowerList (extractValue decoded sp psdKeep)) = true := by
          exact List.elem_iff.mpr hmem2
        rw [this] at hcont
        simp at hcont
      · intro hmem2
        have h1 : (toLowerList ((extractValue decoded sp psdKeep).take 500)).length = 500 := by
          simp only [toLowerList, List.length_map, List.length_take]
          omega
        have h2 : ∀ f ∈ knownFields, f.length ≤ 13 := by decide
        have h3 := h2 _ hmem2
        omega
    · exact hacc x hmem
  · rw [if_neg hg] at hx
    exact hacc x hx

/-- C10: when `parse_structured_data` returns a mapping it is non-empty and
none of its values is, compared case-insensitively, a known field name; it
returns null exactly when the accumulation loop retained no field/value
pair. -/
theorem c10_structured_record :
    ∀ b : List Nat,
      (∀ m, parseStructuredData (.bytes b) = some m →
        m ≠ [] ∧ ∀ kv ∈ m, notFieldName kv) ∧
      (parseStructuredData (.bytes b) = none ↔ psdBuild (utf8Lossy b) = []) := by
  intro b
  constructor
  · intro m hm
    unfold parseStructuredData at hm
    dsimp only at hm
    by_cases hres : psdBuild (utf8Lossy b) = []
    · rw [if_pos hres] at hm; simp at hm
    · rw [if_neg hres] at hm
      simp only [Option.some.injEq] at hm
      subst hm
      refine ⟨hres, ?_⟩
      unfold psdBuild
      exact foldl_preserves_mem notFieldName (fun _ => True)
        (psdStep (utf8Lossy b))
        (fun acc sp _ hacc => psdStep_preserves (utf8Lossy b) acc sp hacc)
        (scanStructured (utf8Lossy b) knownFields) (fun _ _ => trivial) []
        (by simp)
  · unfold parseStructuredData
    dsimp only
    by_cases hres : psdBuild (utf8Lossy b) = []
    · rw [if_pos hres]; simp [hres]
    · rw [if_neg hres]; simp [hres]

/-- C10 witness: the theorem applied to the blob `b"id\x00hello"`, whose
parse result is the single retained pair `id -> "hello"`. -/
theorem c10_witness :
    [(cs "id", cs "hello")] ≠ [] ∧
      ∀ kv ∈ [(cs "id", cs "hello")], notFieldName kv :=
  (c10_structured_record [105, 100, 0, 104, 101, 108, 108, 111]).1
    [(cs "id", cs "hello")] rfl
